import Mathlib

set_option maxHeartbeats 1000000
set_option linter.unusedSectionVars false

/-!
Verification development for the SpuCo core: the `SpuCoMNIST` spurious-feature
dataset builder (`spuco/datasets/spuco_mnist.py`) and the EIIL group-inference
routine (`spuco/group_inference/eiil.py`).

Modelling conventions:
* pixel values and the correlation strength are rationals (the Python floats
  are only ever multiplied by 0/1 indicators and compared, so the claims are
  exact over ℚ);
* randomness (Bernoulli draws, `torch.randperm` shuffles, the random `env_w`
  initialisation and the Adam-computed updates) is passed in as explicit
  parameters, constrained by hypotheses stating what the samplers guarantee
  (a `randperm` result is a permutation of `range n`, a Bernoulli(p) draw can
  be `false` only when `p < 1`, ...);
* fallible code (the `assert` statements, the torch `Bernoulli` parameter
  validation, Python's `ZeroDivisionError` on `i % 0`) is modelled with
  `Except`/`Option`.
-/

namespace SpuCo

/-! ### Python `dict`-based index partitioning

Both `SpuCoMNIST.load_data` (lines 101-105) and `EIIL.infer_groups`
(lines 56-60) build a partition with the same idiom:

    partition = {}
    for i, key in enumerate(keys):
        if key not in partition: partition[key] = []
        partition[key].append(i)

A Python `dict` is insertion ordered, so we model it as an association list:
appending to an existing entry or adding a fresh entry at the end. -/

section Partition

variable {κ : Type} [DecidableEq κ] [Inhabited κ]

/-- One step of `partition[key].append(i)`: append `i` to the entry for `g`
if present, otherwise add a new entry `(g, [i])` at the end. -/
def dictInsert : List (κ × List ℕ) → κ → ℕ → List (κ × List ℕ)
  | [], g, i => [(g, [i])]
  | (g0, l) :: rest, g, i =>
    if g0 = g then (g0, l ++ [i]) :: rest else (g0, l) :: dictInsert rest g i

/-- The partition-building loop, folded over an explicit list of indices. -/
def buildGo (keys : List κ) (idxs : List ℕ) : List (κ × List ℕ) :=
  idxs.foldl (fun d i => dictInsert d (keys.getD i default) i) []

/-- `partition = {}; for i, key in enumerate(keys): partition[key].append(i)`. -/
def buildPartition (keys : List κ) : List (κ × List ℕ) :=
  buildGo keys (List.range keys.length)

theorem dictInsert_eq_append {d : List (κ × List ℕ)} {g : κ} {i : ℕ}
    (h : g ∉ d.map Prod.fst) : dictInsert d g i = d ++ [(g, [i])] := by
  induction d with
  | nil => rfl
  | cons e rest ih =>
    obtain ⟨g0, l⟩ := e
    simp only [List.map_cons, List.mem_cons] at h
    push_neg at h
    simp only [dictInsert, if_neg (Ne.symm h.1), ih h.2, List.cons_append]

theorem dictInsert_fst_of_mem {d : List (κ × List ℕ)} {g : κ} (i : ℕ)
    (h : g ∈ d.map Prod.fst) :
    (dictInsert d g i).map Prod.fst = d.map Prod.fst := by
  induction d with
  | nil => simp at h
  | cons e rest ih =>
    obtain ⟨g0, l⟩ := e
    by_cases hg : g0 = g
    · simp [dictInsert, hg]
    · simp only [List.map_cons, List.mem_cons] at h
      rcases h with h | h
      · exact absurd h.symm hg
      · simp [dictInsert, hg, ih h]

theorem mem_dictInsert_ne {d : List (κ × List ℕ)} {g g1 : κ} {i : ℕ} {l : List ℕ}
    (hne : g1 ≠ g) : ((g1, l) ∈ dictInsert d g i ↔ (g1, l) ∈ d) := by
  induction d with
  | nil =>
    simp only [dictInsert, List.mem_singleton, List.not_mem_nil, iff_false]
    intro h
    exact hne (congrArg Prod.fst h)
  | cons e rest ih =>
    obtain ⟨g0, l0⟩ := e
    by_cases hg : g0 = g
    · subst hg
      have hred : dictInsert ((g0, l0) :: rest) g0 i = (g0, l0 ++ [i]) :: rest := by
        simp [dictInsert]
      rw [hred, List.mem_cons, List.mem_cons]
      constructor
      · rintro (h | h)
        · exact absurd (congrArg Prod.fst h) hne
        · exact Or.inr h
      · rintro (h | h)
        · exact absurd (congrArg Prod.fst h) hne
        · exact Or.inr h
    · simp only [dictInsert, if_neg hg, List.mem_cons]
      rw [ih]

theorem mem_dictInsert_self {d : List (κ × List ℕ)} {g : κ} {i : ℕ} {l l0 : List ℕ}
    (hn : (d.map Prod.fst).Nodup) (hmem : (g, l0) ∈ d) :
    ((g, l) ∈ dictInsert d g i ↔ l = l0 ++ [i]) := by
  induction d with
  | nil => simp at hmem
  | cons e rest ih =>
    obtain ⟨g0, l1⟩ := e
    simp only [List.map_cons, List.nodup_cons] at hn
    rcases List.mem_cons.mp hmem with h | h
    · injection h with hg hl
      subst hg
      subst hl
      have hred : dictInsert ((g, l0) :: rest) g i = (g, l0 ++ [i]) :: rest := by
        simp [dictInsert]
      rw [hred, List.mem_cons]
      constructor
      · rintro (h1 | h1)
        · exact congrArg Prod.snd h1
        · exact absurd (List.mem_map.mpr ⟨(g, l), h1, rfl⟩) hn.1
      · intro h1
        exact Or.inl (by rw [h1])
    · have hg0 : g0 ≠ g := by
        intro hEq
        exact hn.1 (by rw [hEq]; exact List.mem_map.mpr ⟨(g, l0), h, rfl⟩)
      simp only [dictInsert, if_neg hg0, List.mem_cons]
      rw [ih hn.2 h]
      constructor
      · rintro (h1 | h1)
        · exact absurd (congrArg Prod.fst h1).symm hg0
        · exact h1
      · exact fun h1 => Or.inr h1

theorem dictInsert_fst_nodup {d : List (κ × List ℕ)} (hn : (d.map Prod.fst).Nodup)
    (g : κ) (i : ℕ) : ((dictInsert d g i).map Prod.fst).Nodup := by
  by_cases h : g ∈ d.map Prod.fst
  · rw [dictInsert_fst_of_mem i h]; exact hn
  · rw [dictInsert_eq_append h, List.map_append, List.nodup_append]
    refine ⟨hn, List.nodup_singleton _, ?_⟩
    intro a ha hb
    simp only [List.map_cons, List.map_nil, List.mem_singleton] at hb
    subst hb
    exact h ha

/-- Characterisation of the partition-building loop: the keys are distinct, and
`(g, l)` is an entry iff `g` occurs among the keys of the processed indices and
`l` collects, in order, exactly the processed indices whose key is `g`. -/
theorem buildGo_char (keys : List κ) (idxs : List ℕ) :
    ((buildGo keys idxs).map Prod.fst).Nodup ∧
      ∀ g l, ((g, l) ∈ buildGo keys idxs ↔
        (∃ i ∈ idxs, keys.getD i default = g) ∧
          l = idxs.filter (fun i => keys.getD i default = g)) := by
  induction idxs using List.reverseRecOn with
  | nil =>
    refine ⟨by simp [buildGo], ?_⟩
    intro g l
    simp [buildGo]
  | append_singleton idxs m ih =>
    obtain ⟨ihn, ihc⟩ := ih
    have hstep : buildGo keys (idxs ++ [m]) =
        dictInsert (buildGo keys idxs) (keys.getD m default) m := by
      simp [buildGo, List.foldl_append]
    refine ⟨by rw [hstep]; exact dictInsert_fst_nodup ihn _ _, ?_⟩
    intro g l
    rw [hstep]
    set gm := keys.getD m default with hgm
    have hfilapp : ∀ g1 : κ,
        (idxs ++ [m]).filter (fun i => keys.getD i default = g1) =
          idxs.filter (fun i => keys.getD i default = g1) ++
            (if gm = g1 then [m] else []) := by
      intro g1
      rw [List.filter_append]
      have hsing : List.filter (fun i => decide (keys.getD i default = g1)) [m] =
          if gm = g1 then [m] else [] := by
        rw [hgm]
        by_cases h : keys.getD m default = g1
        · simp [List.filter_cons, h]
        · simp [List.filter_cons, h]
      rw [hsing]
    by_cases hmem : gm ∈ (buildGo keys idxs).map Prod.fst
    · -- the key of the new index already has an entry
      obtain ⟨e, he, hefst⟩ := List.mem_map.mp hmem
      obtain ⟨ge, le⟩ := e
      obtain rfl : ge = gm := hefst
      obtain ⟨hex0, hle⟩ := (ihc gm le).mp he
      by_cases hg : g = gm
      · subst hg
        rw [mem_dictInsert_self ihn he]
        constructor
        · intro h1
          refine ⟨⟨m, by simp, hgm.symm⟩, ?_⟩
          rw [h1, hle, hfilapp gm, if_pos rfl]
        · intro ⟨_, h1⟩
          rw [h1, hfilapp gm, if_pos rfl, hle]
      · rw [mem_dictInsert_ne hg, ihc g l, hfilapp g,
          if_neg (fun h => hg h.symm), List.append_nil]
        constructor
        · intro ⟨⟨i, hi, hik⟩, h2⟩
          exact ⟨⟨i, List.mem_append.mpr (Or.inl hi), hik⟩, h2⟩
        · intro ⟨⟨i, hi, hik⟩, h2⟩
          rcases List.mem_append.mp hi with hi | hi
          · exact ⟨⟨i, hi, hik⟩, h2⟩
          · rw [List.mem_singleton] at hi
            subst hi
            exact absurd (hgm.trans hik) (fun h => hg h.symm)
    · -- fresh key: new entry appended at the end
      rw [dictInsert_eq_append hmem]
      have hnoidx : ∀ i ∈ idxs, keys.getD i default ≠ gm := by
        intro i hi hik
        exact hmem (List.mem_map.mpr
          ⟨(gm, idxs.filter (fun j => keys.getD j default = gm)),
            (ihc _ _).mpr ⟨⟨i, hi, hik⟩, rfl⟩, rfl⟩)
      have hfil0 : idxs.filter (fun i => keys.getD i default = gm) = [] := by
        rw [List.filter_eq_nil_iff]
        intro a ha
        simp only [decide_eq_true_eq]
        exact hnoidx a ha
      by_cases hg : g = gm
      · subst hg
        rw [List.mem_append, List.mem_singleton]
        constructor
        · rintro (h1 | h1)
          · obtain ⟨⟨i, hi, hik⟩, -⟩ := (ihc _ _).mp h1
            exact absurd hik (hnoidx i hi)
          · injection h1 with _ h1l
            refine ⟨⟨m, by simp, hgm.symm⟩, ?_⟩
            rw [h1l, hfilapp gm, if_pos rfl, hfil0, List.nil_append]
        · intro ⟨_, h1⟩
          right
          rw [hfilapp gm, if_pos rfl, hfil0, List.nil_append] at h1
          rw [h1]
      · rw [List.mem_append, List.mem_singleton]
        constructor
        · rintro (h1 | h1)
          · obtain ⟨⟨i, hi, hik⟩, h2⟩ := (ihc _ _).mp h1
            refine ⟨⟨i, List.mem_append.mpr (Or.inl hi), hik⟩, ?_⟩
            rw [hfilapp g, if_neg (fun h => hg h.symm), List.append_nil]
            exact h2
          · exact absurd (congrArg Prod.fst h1) hg
        · intro ⟨⟨i, hi, hik⟩, h2⟩
          left
          apply (ihc g l).mpr
          rcases List.mem_append.mp hi with hi | hi
          · refine ⟨⟨i, hi, hik⟩, ?_⟩
            rw [hfilapp g, if_neg (fun h => hg h.symm), List.append_nil] at h2
            exact h2
          · rw [List.mem_singleton] at hi
            subst hi
            exact absurd (hgm.trans hik) (fun h => hg h.symm)

theorem buildPartition_fst_nodup (keys : List κ) :
    ((buildPartition keys).map Prod.fst).Nodup :=
  (buildGo_char keys (List.range keys.length)).1

theorem buildPartition_mem_iff (keys : List κ) (g : κ) (l : List ℕ) :
    (g, l) ∈ buildPartition keys ↔
      (∃ i < keys.length, keys.getD i default = g) ∧
        l = (List.range keys.length).filter (fun i => keys.getD i default = g) := by
  rw [buildPartition, (buildGo_char keys (List.range keys.length)).2 g l]
  simp [List.mem_range]

theorem buildPartition_mem_members {keys : List κ} {g : κ} {l : List ℕ}
    (h : (g, l) ∈ buildPartition keys) (i : ℕ) :
    i ∈ l ↔ i < keys.length ∧ keys.getD i default = g := by
  obtain ⟨-, hl⟩ := (buildPartition_mem_iff keys g l).mp h
  subst hl
  simp [List.mem_filter]

theorem buildPartition_members_nodup {keys : List κ} {g : κ} {l : List ℕ}
    (h : (g, l) ∈ buildPartition keys) : l.Nodup := by
  obtain ⟨-, hl⟩ := (buildPartition_mem_iff keys g l).mp h
  subst hl
  exact (List.nodup_range _).filter _

theorem buildPartition_covers {keys : List κ} {i : ℕ} (hi : i < keys.length) :
    ∃ g l, (g, l) ∈ buildPartition keys ∧ i ∈ l := by
  refine ⟨keys.getD i default,
    (List.range keys.length).filter
      (fun j => keys.getD j default = keys.getD i default),
    (buildPartition_mem_iff keys _ _).mpr ⟨⟨i, hi, rfl⟩, rfl⟩, ?_⟩
  simp [List.mem_filter, List.mem_range, hi]

theorem buildPartition_disjoint (keys : List κ) :
    (buildPartition keys).Pairwise (fun e1 e2 => ∀ x, x ∈ e1.2 → x ∉ e2.2) := by
  have hfst := buildPartition_fst_nodup keys
  rw [List.Nodup, List.pairwise_map] at hfst
  refine List.Pairwise.imp_of_mem ?_ hfst
  intro e1 e2 h1 h2 hne x hx1 hx2
  obtain ⟨e1g, e1l⟩ := e1
  obtain ⟨e2g, e2l⟩ := e2
  have k1 := (buildPartition_mem_members h1 x).mp hx1
  have k2 := (buildPartition_mem_members h2 x).mp hx2
  exact hne (k1.2 ▸ k2.2 ▸ rfl)

/-- Total number of occurrences of index `i` across all the groups' lists. -/
def partitionCount (d : List (κ × List ℕ)) (i : ℕ) : ℕ :=
  (d.map (fun e => e.2.count i)).sum

theorem partitionCount_aux (d : List (κ × List ℕ)) (i : ℕ) (gk : κ) (t : ℕ)
    (hn : (d.map Prod.fst).Nodup)
    (hcnt : ∀ e ∈ d, e.2.count i = if e.1 = gk then t else 0)
    (hcov : 0 < t → gk ∈ d.map Prod.fst) :
    partitionCount d i = t := by
  induction d with
  | nil =>
    rcases Nat.eq_zero_or_pos t with h | h
    · simp [partitionCount, h]
    · exact absurd (hcov h) (by simp)
  | cons e rest ih =>
    simp only [List.map_cons, List.nodup_cons] at hn
    have hsum : partitionCount (e :: rest) i =
        e.2.count i + partitionCount rest i := by
      simp [partitionCount]
    by_cases hfst : e.1 = gk
    · have hrest : partitionCount rest i = 0 := by
        apply List.sum_eq_zero
        intro x hx
        obtain ⟨e2, he2, hxe⟩ := List.mem_map.mp hx
        subst hxe
        have hne2 : e2.1 ≠ gk := by
          intro hEq
          exact hn.1 (by rw [hfst, ← hEq]; exact List.mem_map.mpr ⟨e2, he2, rfl⟩)
        rw [hcnt e2 (List.mem_cons_of_mem _ he2), if_neg hne2]
      rw [hsum, hrest, hcnt e (List.mem_cons_self _ _), if_pos hfst]
      omega
    · have hr := ih hn.2 (fun e2 he2 => hcnt e2 (List.mem_cons_of_mem _ he2))
        (fun ht => by
          rcases List.mem_cons.mp (hcov ht) with h | h
          · exact absurd h.symm hfst
          · exact h)
      rw [hsum, hcnt e (List.mem_cons_self _ _), if_neg hfst, hr]
      omega

/-- The partition built by the dict loop contains every index `i < keys.length`
exactly once across all group lists, and no other index at all. -/
theorem partitionCount_buildPartition (keys : List κ) (i : ℕ) :
    partitionCount (buildPartition keys) i = if i < keys.length then 1 else 0 := by
  apply partitionCount_aux _ i (keys.getD i default)
  · exact buildPartition_fst_nodup keys
  · intro e he
    obtain ⟨g, l⟩ := e
    have hnd := buildPartition_members_nodup he
    have hmem := buildPartition_mem_members he i
    by_cases hg : g = keys.getD i default
    · simp only [hg, if_pos rfl]
      by_cases hi : i < keys.length
      · rw [if_pos hi]
        exact List.count_eq_one_of_mem hnd (hmem.mpr ⟨hi, hg ▸ rfl⟩)
      · rw [if_neg hi]
        exact List.count_eq_zero_of_not_mem (fun h => hi (hmem.mp h).1)
    · simp only [if_neg hg]
      apply List.count_eq_zero_of_not_mem
      intro h
      exact hg ((hmem.mp h).2 ▸ rfl)
  · intro ht
    have hi : i < keys.length := by
      by_contra h
      simp [h] at ht
    obtain ⟨g, l, hgl, hil⟩ := buildPartition_covers hi
    have hk := (buildPartition_mem_members hgl i).mp hil
    exact hk.2 ▸ List.mem_map.mpr ⟨(g, l), hgl, rfl⟩

/-- `d` is an exact partition of `{0..N-1}`: every index below `N` occurs in
exactly one group's list (once in total, so no duplicates anywhere), and no
index `≥ N` occurs at all. -/
def isExactPartition (d : List (κ × List ℕ)) (N : ℕ) : Prop :=
  ∀ i : ℕ, partitionCount d i = if i < N then 1 else 0

end Partition

/-! ### `SpuCoMNIST` dataset builder (`spuco/datasets/spuco_mnist.py`) -/

/-- `SpuCoMNIST.validate_classes` (lines 156-176): every element of every class
must be a digit `0..9` (labels are naturals here, so only the upper bound is
checked) and the classes, viewed as sets, must be pairwise disjoint. -/
def validate_classes (classes : List (List ℕ)) : Bool :=
  classes.all (fun c => c.all (fun x => x ≤ 9)) && pairwiseDisjoint classes
where
  /-- the `sets[i].intersection(sets[j])` double loop over `i < j` -/
  pairwiseDisjoint : List (List ℕ) → Bool
    | [] => true
    | c :: rest =>
      rest.all (fun c2 => c.all (fun x => !(c2.contains x))) && pairwiseDisjoint rest

/-- The label-remapping loop (lines 91-95): the loop variable `label` is bound
once per sample, so each kept sample ends with `labels[i] = class_idx` for the
class containing its raw label. Under the `validate_classes` assert the classes
are disjoint, so at most one class matches and the first match is the match. -/
def new_label (classes : List (List ℕ)) (raw : ℕ) : Option ℕ :=
  match classes with
  | [] => none
  | c :: rest => if raw ∈ c then some 0 else (new_label rest raw).map (· + 1)

/-- Remapped labels of the kept samples, in original order (lines 90-98):
samples whose raw label lies in no class are dropped, the rest keep their
relative order and get their latent-class index as new label. -/
def keptLabels (classes : List (List ℕ)) (rawLabels : List ℕ) : List ℕ :=
  rawLabels.filterMap (new_label classes)

/-- `other_labels = [x for x in range(len(self.classes)) if x != label]`
(line 114). -/
def other_labels (k g : ℕ) : List ℕ :=
  (List.range k).filter (fun x => x ≠ g)

/-- Errors surfaced by `load_data`, in the order the Python code can raise
them. -/
inductive LoadError
  /-- the `assert SpuCoMNIST.validate_classes(...)` at line 87 -/
  | invalidClasses
  /-- the `assert self.spurious_correlation_strength >= 0.` at line 110 -/
  | strengthNotSet
  /-- `torch.distributions.Bernoulli(probs=...)` at line 111 validates (with
  the default `validate_args`) that `probs` lies in the unit interval and
  raises `ValueError` otherwise -/
  | strengthOutOfRange
  /-- `other_labels[i % len(other_labels)]` at line 115 raises
  `ZeroDivisionError` when `other_labels` is empty -/
  | zeroDivision
deriving DecidableEq

/-- Sequence a list of optional values: `some` of the list of values iff every
element is `some` (a Python list comprehension that raises on some element
raises for the whole list). -/
def seqOpt : List (Option α) → Option (List α)
  | [] => some []
  | none :: _ => none
  | some a :: rest => (seqOpt rest).map (a :: ·)

/-- One entry of the training `background_label` list (line 115):
`label if spurious_or_not[i] else other_labels[i % len(other_labels)]`.
`none` models the `ZeroDivisionError` raised when `other_labels` is empty
(the `else` branch is only evaluated when the draw is 0). -/
def train_bg_entry (k g : ℕ) (bern : List Bool) (i : ℕ) : Option ℤ :=
  if bern.getD i false then some (g : ℤ)
  else
    match (other_labels k g).get? (i % (other_labels k g).length) with
    | some x => some (x : ℤ)
    | none => none

/-- The full training `background_label` list for one group of size `m`
(line 115), before the shuffle. -/
def train_bg_labels (k g : ℕ) (bern : List Bool) (m : ℕ) : Option (List ℤ) :=
  seqOpt ((List.range m).map (train_bg_entry k g bern))

/-- The test-mode `background_label` list for one group of size `m`
(line 124): `[i % len(self.classes) for i in range(len(partition[label]))]`. -/
def test_bg_labels (k m : ℕ) : List ℤ :=
  (List.range m).map (fun i => ((i % k : ℕ) : ℤ))

/-- Tensor indexing by an index list, `xs[σ]`: used for the
`background_label[torch.randperm(len(background_label))]` shuffles (lines 116
and 125) and the `all_points[torch.randperm(len(all_points))[:49]]` point
selection (lines 206 and 210). A `randperm` result is a permutation of
`range n`, stated as a hypothesis where needed. -/
def permute (σ : List ℕ) (xs : List α) (dflt : α) : List α :=
  σ.map (fun j => xs.getD j dflt)

/-- The per-group assignment loop (lines 117-118 / 126-127):
`for i, idx in enumerate(members): spurious[idx] = vals[i]`. -/
def assign_group : List ℤ → List ℕ → List ℤ → List ℤ
  | s, idx :: members, v :: vals => assign_group (s.set idx v) members vals
  | s, _, _ => s

/-- The per-group loop of `load_data` (lines 112-120 / 123-129), abstracted
over how each group's (already shuffled) spurious-label list is produced. -/
def apply_groups (valsFor : ℕ → ℕ → Except LoadError (List ℤ)) :
    List (ℕ × List ℕ) → List ℤ → Except LoadError (List ℤ)
  | [], s => Except.ok s
  | (g, members) :: rest, s =>
    match valsFor g members.length with
    | Except.error e => Except.error e
    | Except.ok vals => apply_groups valsFor rest (assign_group s members vals)

/-- Training-mode spurious labels for one group (lines 113-116): Bernoulli
draws, the aligned/cycled `background_label` list, then the `randperm`
shuffle. -/
def train_vals_for (k : ℕ) (bern : ℕ → List Bool) (shuf : ℕ → List ℕ)
    (g m : ℕ) : Except LoadError (List ℤ) :=
  match train_bg_labels k g (bern g) m with
  | none => Except.error LoadError.zeroDivision
  | some vals => Except.ok (permute (shuf g) vals 0)

/-- Test-mode spurious labels for one group (lines 124-125): the cyclic
`i % len(classes)` list, shuffled. -/
def test_vals_for (k : ℕ) (shuf : ℕ → List ℕ) (g m : ℕ) :
    Except LoadError (List ℤ) :=
  Except.ok (permute (shuf g) (test_bg_labels k m) 0)

/-- `SpuCoMNIST.load_data` (lines 68-131), label/spurious part: validates the
classes, remaps labels and drops uncovered samples, partitions the kept
indices by new label, and fills the spurious vector (initialised to `-1`,
line 108) group by group.  `bern g` are the Bernoulli draws and `shuf g` the
`randperm` result used while processing group `g`.  Pixel compositing
(lines 119-120 / 128-129) is modelled separately by `composite_image`. -/
def load_data (classes : List (List ℕ)) (strength : ℚ) (train : Bool)
    (rawLabels : List ℕ) (bern : ℕ → List Bool) (shuf : ℕ → List ℕ) :
    Except LoadError (List ℕ × List ℤ) :=
  if validate_classes classes then
    let labels := keptLabels classes rawLabels
    let part := buildPartition labels
    let s0 : List ℤ := List.replicate labels.length (-1)
    if train then
      if strength < 0 then Except.error LoadError.strengthNotSet
      else if 1 < strength then Except.error LoadError.strengthOutOfRange
      else
        (apply_groups (train_vals_for classes.length bern shuf) part s0).map
          (fun s => (labels, s))
    else
      (apply_groups (test_vals_for classes.length shuf) part s0).map
        (fun s => (labels, s))
  else Except.error LoadError.invalidClasses

/-- Support of a Bernoulli(`p`) draw: a draw of 1 (`true`) has probability
`p`, so it can only occur when `0 < p`; a draw of 0 requires `p < 1`. -/
def bernoulli_support (p : ℚ) (b : Bool) : Bool :=
  if b then decide (0 < p) else decide (p < 1)

/-! ### Pixel compositing (line 120 / 129)

`self.data.X[idx] = (background * (self.data.X[idx] == 0)) + self.data.X[idx]`
is elementwise over same-shape tensors; we model one pixel and a flattened
image. -/

/-- One pixel of `background * (X == 0) + X`: the boolean mask `(X == 0)`
is promoted to `1.0 / 0.0` by the multiplication. -/
def composite_pixel (b x : ℚ) : ℚ :=
  b * (if x = 0 then 1 else 0) + x

/-- The whole-image composite, pixelwise over the flattened tensors. -/
def composite_image (bg img : List ℚ) : List ℚ :=
  List.zipWith composite_pixel bg img

/-! ### EIIL group inference (`spuco/group_inference/eiil.py`) -/

/-- Hardened environment assignment (line 51): `env_w.sigmoid() > .5`,
then `.int()` (line 52): `1` for environment b, `0` for environment a.
`envPos` is the per-sample boolean `sigmoid(env_w[i]) > 0.5`. -/
def raw_group_labels (envPos : List Bool) : List ℤ :=
  envPos.map (fun b => if b then 1 else 0)

/-- The refinement split (line 53): `group_labels[self.labels == 1] += 2`. -/
def eiil_group_labels (envPos : List Bool) (labels : List ℤ) : List ℤ :=
  List.zipWith (fun gl lab => if lab = 1 then gl + 2 else gl)
    (raw_group_labels envPos) labels

/-- The group partition returned by `infer_groups` (lines 56-62). -/
def eiil_group_partition (envPos : List Bool) (labels : List ℤ) :
    List (ℤ × List ℕ) :=
  buildPartition (eiil_group_labels envPos labels)

/-! ### Supporting lemmas for the dataset builder -/

theorem getD_mem_of_lt {α : Type} {l : List α} {i : ℕ} (dflt : α)
    (h : i < l.length) : l.getD i dflt ∈ l := by
  rw [List.getD_eq_getElem _ _ h]
  exact List.getElem_mem h

theorem new_label_lt {classes : List (List ℕ)} {raw g : ℕ}
    (h : new_label classes raw = some g) : g < classes.length := by
  induction classes generalizing g with
  | nil => simp [new_label] at h
  | cons c rest ih =>
    rw [new_label] at h
    by_cases hc : raw ∈ c
    · rw [if_pos hc] at h
      injection h with h
      simp only [List.length_cons]
      omega
    · rw [if_neg hc] at h
      cases hrec : new_label rest raw with
      | none => rw [hrec] at h; simp at h
      | some g0 =>
        rw [hrec, Option.map_some'] at h
        injection h with h
        have := ih hrec
        simp only [List.length_cons]
        omega

theorem keptLabels_lt {classes : List (List ℕ)} {rawLabels : List ℕ} {g : ℕ}
    (h : g ∈ keptLabels classes rawLabels) : g < classes.length := by
  obtain ⟨raw, -, hr⟩ := List.mem_filterMap.mp h
  exact new_label_lt hr

theorem seqOpt_eq_none_of_mem {α : Type} {l : List (Option α)}
    (h : (none : Option α) ∈ l) : seqOpt l = none := by
  induction l with
  | nil => simp at h
  | cons o rest ih =>
    cases o with
    | none => rfl
    | some a =>
      rcases List.mem_cons.mp h with h | h
      · exact absurd h.symm (by simp)
      · rw [seqOpt, ih h]
        rfl

theorem seqOpt_some_spec {α : Type} {l : List (Option α)} {res : List α}
    (h : seqOpt l = some res) :
    res.length = l.length ∧ ∀ a ∈ res, some a ∈ l := by
  induction l generalizing res with
  | nil =>
    rw [seqOpt] at h
    injection h with h
    subst h
    simp
  | cons o rest ih =>
    cases o with
    | none => rw [seqOpt] at h; exact absurd h (by simp)
    | some a =>
      rw [seqOpt] at h
      cases hrec : seqOpt rest with
      | none => rw [hrec] at h; simp at h
      | some res0 =>
        rw [hrec, Option.map_some'] at h
        injection h with h
        subst h
        obtain ⟨hlen, hmem⟩ := ih hrec
        refine ⟨by simp [hlen], ?_⟩
        intro x hx
        rcases List.mem_cons.mp hx with hx | hx
        · rw [hx]; exact List.mem_cons_self _ _
        · exact List.mem_cons_of_mem _ (hmem x hx)

theorem seqOpt_const {α : Type} {l : List (Option α)} {a : α}
    (h : ∀ o ∈ l, o = some a) : seqOpt l = some (List.replicate l.length a) := by
  induction l with
  | nil => rfl
  | cons o rest ih =>
    have ho := h o (List.mem_cons_self _ _)
    subst ho
    rw [seqOpt, ih (fun o2 h2 => h o2 (List.mem_cons_of_mem _ h2))]
    simp [List.replicate_succ]

theorem seqOpt_total {α : Type} {l : List (Option α)}
    (h : ∀ o ∈ l, o ≠ none) : ∃ res, seqOpt l = some res := by
  induction l with
  | nil => exact ⟨[], rfl⟩
  | cons o rest ih =>
    obtain ⟨res0, hres0⟩ := ih (fun o2 h2 => h o2 (List.mem_cons_of_mem _ h2))
    cases o with
    | none => exact absurd rfl (h none (List.mem_cons_self _ _))
    | some a => exact ⟨a :: res0, by rw [seqOpt, hres0]; rfl⟩

theorem mem_other_labels {k g x : ℕ} :
    x ∈ other_labels k g ↔ x < k ∧ x ≠ g := by
  simp [other_labels, List.mem_filter, List.mem_range]

theorem train_bg_labels_all_true {k g m : ℕ} {bern : List Bool}
    (h : ∀ i < m, bern.getD i false = true) :
    train_bg_labels k g bern m = some (List.replicate m (g : ℤ)) := by
  rw [train_bg_labels]
  have hc : ∀ o ∈ (List.range m).map (train_bg_entry k g bern), o = some (g : ℤ) := by
    intro o ho
    obtain ⟨i, hi, ho⟩ := List.mem_map.mp ho
    rw [← ho, train_bg_entry, if_pos (h i (List.mem_range.mp hi))]
  rw [seqOpt_const hc]
  simp

theorem train_bg_labels_range {k g m : ℕ} {bern : List Bool} {vals : List ℤ}
    (hg : g < k) (h : train_bg_labels k g bern m = some vals) :
    ∀ v ∈ vals, 0 ≤ v ∧ v < (k : ℤ) := by
  intro v hv
  obtain ⟨-, hmem⟩ := seqOpt_some_spec h
  obtain ⟨i, -, hi⟩ := List.mem_map.mp (hmem v hv)
  rw [train_bg_entry] at hi
  by_cases hb : bern.getD i false = true
  · rw [if_pos hb] at hi
    injection hi with hi
    subst hi
    constructor
    · positivity
    · exact_mod_cast hg
  · rw [if_neg hb] at hi
    cases hx : (other_labels k g).get? (i % (other_labels k g).length) with
    | none => rw [hx] at hi; simp at hi
    | some x =>
      rw [hx] at hi
      injection hi with hi
      subst hi
      have hxk := (mem_other_labels.mp (List.get?_mem hx)).1
      constructor
      · positivity
      · exact_mod_cast hxk

theorem train_bg_labels_none {k g m : ℕ} {bern : List Bool}
    (hk : other_labels k g = []) (h : ∃ i < m, bern.getD i false = false) :
    train_bg_labels k g bern m = none := by
  obtain ⟨i, hi, hb⟩ := h
  apply seqOpt_eq_none_of_mem
  have : train_bg_entry k g bern i = none := by
    rw [train_bg_entry, if_neg (by rw [hb]; simp), hk]
    rfl
  rw [← this]
  exact List.mem_map.mpr ⟨i, List.mem_range.mpr hi, rfl⟩

theorem train_bg_labels_total {k g m : ℕ} {bern : List Bool}
    (hne : other_labels k g ≠ []) :
    ∃ vals, train_bg_labels k g bern m = some vals := by
  apply seqOpt_total
  intro o ho
  obtain ⟨i, -, hi⟩ := List.mem_map.mp ho
  rw [← hi, train_bg_entry]
  by_cases hb : bern.getD i false = true
  · rw [if_pos hb]; simp
  · rw [if_neg hb]
    have hlen : 0 < (other_labels k g).length := List.length_pos.mpr hne
    have hlt : i % (other_labels k g).length < (other_labels k g).length :=
      Nat.mod_lt _ hlen
    rw [List.get?_eq_get hlt]
    simp

theorem other_labels_ne_nil {k g : ℕ} (hk : 2 ≤ k) :
    other_labels k g ≠ [] := by
  by_cases hg : g = 0
  · have h1 : (1 : ℕ) ∈ other_labels k g :=
      mem_other_labels.mpr ⟨hk, by omega⟩
    exact List.ne_nil_of_mem h1
  · have h0 : (0 : ℕ) ∈ other_labels k g :=
      mem_other_labels.mpr ⟨by omega, fun h => hg h.symm⟩
    exact List.ne_nil_of_mem h0

/-! ### Supporting lemmas for `permute` -/

theorem permute_length {α : Type} (σ : List ℕ) (xs : List α) (dflt : α) :
    (permute σ xs dflt).length = σ.length := by
  simp [permute]

theorem permute_mem {α : Type} {σ : List ℕ} {xs : List α} {dflt : α} {v : α}
    (h : v ∈ permute σ xs dflt) : v ∈ xs ∨ v = dflt := by
  obtain ⟨j, -, hj⟩ := List.mem_map.mp h
  by_cases hlt : j < xs.length
  · exact Or.inl (hj ▸ getD_mem_of_lt dflt hlt)
  · right
    rw [← hj, List.getD_eq_default]
    omega

theorem permute_replicate {α : Type} {σ : List ℕ} {m : ℕ} {a dflt : α}
    (hσ : ∀ j ∈ σ, j < m) :
    permute σ (List.replicate m a) dflt = List.replicate σ.length a := by
  rw [permute, List.eq_replicate_iff]
  refine ⟨by simp, ?_⟩
  intro b hb
  obtain ⟨j, hj, hjb⟩ := List.mem_map.mp hb
  rw [← hjb, List.getD_eq_getElem _ _ (by simpa using hσ j hj)]
  simp

theorem permute_count {σ : List ℕ} {m : ℕ} {xs : List ℤ} {c : ℤ}
    (hσ : σ.Perm (List.range m)) :
    (permute σ xs 0).count c = (List.range m).countP (fun j => xs.getD j 0 = c) := by
  rw [permute, List.count_eq_countP, List.countP_map]
  apply List.Perm.countP_eq _ hσ

/-! ### Supporting lemmas for `assign_group` / `apply_groups` -/

theorem assign_group_length (s : List ℤ) (members : List ℕ) (vals : List ℤ) :
    (assign_group s members vals).length = s.length := by
  induction members generalizing s vals with
  | nil => cases vals <;> rfl
  | cons idx ms ih =>
    cases vals with
    | nil => rfl
    | cons v vs => rw [assign_group, ih, List.length_set]

theorem assign_group_getD_not_mem {members : List ℕ} {idx : ℕ}
    (h : idx ∉ members) (s : List ℤ) (vals : List ℤ) (dflt : ℤ) :
    (assign_group s members vals).getD idx dflt = s.getD idx dflt := by
  induction members generalizing s vals with
  | nil => cases vals <;> rfl
  | cons m ms ih =>
    cases vals with
    | nil => rfl
    | cons v vs =>
      simp only [List.mem_cons] at h
      push_neg at h
      rw [assign_group, ih h.2]
      rw [List.getD_eq_getD_get?, List.getD_eq_getD_get?, List.get?_eq_getElem?,
        List.get?_eq_getElem?, List.getElem?_set_ne (Ne.symm h.1)]

theorem assign_group_map_getD {members : List ℕ} {vals : List ℤ} {s : List ℤ}
    (dflt : ℤ) (hnd : members.Nodup) (hlen : vals.length = members.length)
    (hsub : ∀ x ∈ members, x < s.length) :
    members.map (fun idx => (assign_group s members vals).getD idx dflt) = vals := by
  induction members generalizing s vals with
  | nil =>
    cases vals with
    | nil => rfl
    | cons v vs => simp at hlen
  | cons m ms ih =>
    cases vals with
    | nil => simp at hlen
    | cons v vs =>
      simp only [List.nodup_cons] at hnd
      rw [assign_group, List.map_cons]
      congr 1
      · rw [assign_group_getD_not_mem hnd.1]
        rw [List.getD_eq_getElem?_getD, List.getElem?_set_self
          (hsub m (List.mem_cons_self _ _))]
        rfl
      · apply ih hnd.2 (by simpa using hlen)
        intro x hx
        rw [List.length_set]
        exact hsub x (List.mem_cons_of_mem _ hx)

theorem apply_groups_ok_of_all {valsFor : ℕ → ℕ → Except LoadError (List ℤ)}
    {groups : List (ℕ × List ℕ)} (s : List ℤ)
    (h : ∀ e ∈ groups, ∃ vals, valsFor e.1 e.2.length = Except.ok vals) :
    ∃ r, apply_groups valsFor groups s = Except.ok r := by
  induction groups generalizing s with
  | nil => exact ⟨s, rfl⟩
  | cons e rest ih =>
    obtain ⟨g, members⟩ := e
    obtain ⟨vals, hvals⟩ := h _ (List.mem_cons_self _ _)
    obtain ⟨r, hr⟩ := ih (assign_group s members vals)
      (fun e2 h2 => h e2 (List.mem_cons_of_mem _ h2))
    exact ⟨r, by rw [apply_groups, hvals]; exact hr⟩

theorem apply_groups_error {valsFor : ℕ → ℕ → Except LoadError (List ℤ)}
    {groups : List (ℕ × List ℕ)} {s : List ℤ} {err : LoadError}
    (h : apply_groups valsFor groups s = Except.error err) :
    ∃ g m, valsFor g m = Except.error err := by
  induction groups generalizing s with
  | nil => simp [apply_groups] at h
  | cons e rest ih =>
    obtain ⟨g, members⟩ := e
    rw [apply_groups] at h
    cases hv : valsFor g members.length with
    | error e2 =>
      rw [hv] at h
      injection h with h
      exact ⟨g, members.length, by rw [hv, h]⟩
    | ok vals =>
      rw [hv] at h
      exact ih h

/-- Main correctness lemma for the per-group assignment loop: on success, the
result has the same length as the start vector, indices in no group are
untouched, and reading the result back along each group's member list yields
exactly that group's value list. -/
theorem apply_groups_ok_spec {valsFor : ℕ → ℕ → Except LoadError (List ℤ)}
    {groups : List (ℕ × List ℕ)} {s0 r : List ℤ}
    (hdisj : groups.Pairwise (fun e1 e2 => ∀ x, x ∈ e1.2 → x ∉ e2.2))
    (hnd : ∀ e ∈ groups, e.2.Nodup)
    (hsub : ∀ e ∈ groups, ∀ x ∈ e.2, x < s0.length)
    (hlen : ∀ e ∈ groups, ∀ vals, valsFor e.1 e.2.length = Except.ok vals →
      vals.length = e.2.length)
    (hok : apply_groups valsFor groups s0 = Except.ok r) :
    r.length = s0.length ∧
    (∀ idx, (∀ e ∈ groups, idx ∉ e.2) →
      r.getD idx (-1) = s0.getD idx (-1)) ∧
    (∀ e ∈ groups, ∃ vals, valsFor e.1 e.2.length = Except.ok vals ∧
      e.2.map (fun idx => r.getD idx (-1)) = vals) := by
  induction groups generalizing s0 with
  | nil =>
    rw [apply_groups] at hok
    injection hok with hok
    subst hok
    exact ⟨rfl, fun idx _ => rfl, by simp⟩
  | cons e rest ih =>
    obtain ⟨g, members⟩ := e
    rw [apply_groups] at hok
    cases hv : valsFor g members.length with
    | error e2 => rw [hv] at hok; simp at hok
    | ok vals =>
      rw [hv] at hok
      have hvlen : vals.length = members.length :=
        hlen _ (List.mem_cons_self _ _) vals hv
      have hs1len : (assign_group s0 members vals).length = s0.length :=
        assign_group_length s0 members vals
      obtain ⟨hdhead, hdrest⟩ := List.pairwise_cons.mp hdisj
      obtain ⟨ihlen, ihout, ihspec⟩ := ih hdrest
        (fun e2 h2 => hnd e2 (List.mem_cons_of_mem _ h2))
        (fun e2 h2 x hx => hs1len ▸ hsub e2 (List.mem_cons_of_mem _ h2) x hx)
        (fun e2 h2 => hlen e2 (List.mem_cons_of_mem _ h2)) hok
      refine ⟨ihlen.trans hs1len, ?_, ?_⟩
      · intro idx hidx
        rw [ihout idx (fun e2 h2 => hidx e2 (List.mem_cons_of_mem _ h2)),
          assign_group_getD_not_mem (hidx _ (List.mem_cons_self _ _))]
      · intro e2 h2
        rcases List.mem_cons.mp h2 with h2 | h2
        · subst h2
          refine ⟨vals, hv, ?_⟩
          have hmap : members.map
              (fun idx => (assign_group s0 members vals).getD idx (-1)) = vals :=
            assign_group_map_getD (-1) (hnd _ (List.mem_cons_self _ _)) hvlen
              (hsub _ (List.mem_cons_self _ _))
          rw [← hmap]
          apply List.map_congr_left
          intro idx hidx
          exact ihout idx (fun e3 h3 => hdhead e3 h3 idx hidx)
        · exact ihspec e2 h2

theorem train_vals_for_error {k g m : ℕ} {bern : ℕ → List Bool}
    {shuf : ℕ → List ℕ} {err : LoadError}
    (h : train_vals_for k bern shuf g m = Except.error err) :
    err = LoadError.zeroDivision := by
  rw [train_vals_for] at h
  cases hv : train_bg_labels k g (bern g) m with
  | none => rw [hv] at h; injection h with h; exact h.symm
  | some vals => rw [hv] at h; simp at h

theorem bernoulli_support_one {b : Bool} (h : bernoulli_support 1 b = true) :
    b = true := by
  cases b with
  | true => rfl
  | false =>
    rw [bernoulli_support] at h
    simp at h

theorem buildPartition_key_lt {classes : List (List ℕ)} {rawLabels : List ℕ}
    {g : ℕ} {l : List ℕ}
    (h : (g, l) ∈ buildPartition (keptLabels classes rawLabels)) :
    g < classes.length := by
  obtain ⟨⟨i, hi, hik⟩, -⟩ :=
    (buildPartition_mem_iff (keptLabels classes rawLabels) g l).mp h
  exact keptLabels_lt (hik ▸ getD_mem_of_lt _ hi)

/-- When every key equals `0` and there is at least one sample, the partition
is the single group `(0, [0, ..., N-1])`. -/
theorem buildPartition_single {keys : List ℕ}
    (h0 : ∀ g ∈ keys, g = 0) (hN : 0 < keys.length) :
    buildPartition keys = [(0, List.range keys.length)] := by
  have hkey : ∀ i < keys.length, keys.getD i (default : ℕ) = 0 :=
    fun i hi => h0 _ (getD_mem_of_lt _ hi)
  have hmem0 : ((0 : ℕ), List.range keys.length) ∈ buildPartition keys := by
    apply (buildPartition_mem_iff keys 0 _).mpr
    refine ⟨⟨0, hN, hkey 0 hN⟩, ?_⟩
    rw [eq_comm, List.filter_eq_self]
    intro a ha
    simp only [decide_eq_true_eq]
    exact hkey a (List.mem_range.mp ha)
  have hall : ∀ e ∈ buildPartition keys, e = ((0 : ℕ), List.range keys.length) := by
    intro e he
    obtain ⟨g, l⟩ := e
    obtain ⟨⟨i, hi, hik⟩, hl⟩ := (buildPartition_mem_iff keys g l).mp he
    have hg : g = 0 := hik ▸ hkey i hi
    subst hg
    subst hl
    congr 1
    rw [List.filter_eq_self]
    intro a ha
    simp only [decide_eq_true_eq]
    exact hkey a (List.mem_range.mp ha)
  have hfst := buildPartition_fst_nodup keys
  cases hpart : buildPartition keys with
  | nil => rw [hpart] at hmem0; simp at hmem0
  | cons e rest =>
    rw [hpart] at hall hfst
    have he := hall e (List.mem_cons_self _ _)
    subst he
    have hrest : rest = [] := by
      rw [List.eq_nil_iff_forall_not_mem]
      intro e2 he2
      have h2 := hall e2 (List.mem_cons_of_mem _ he2)
      subst h2
      simp only [List.map_cons, List.nodup_cons] at hfst
      exact hfst.1 (List.mem_map.mpr ⟨_, he2, rfl⟩)
    rw [hrest]

/-! ### C2 — training-mode correlation-strength validation -/

/-- C2: constructing the dataset in training mode fails immediately with a
fatal configuration error (the strength `assert` at line 110, or the torch
`Bernoulli` parameter validation at line 111) exactly when the correlation
strength is unset (the `-1.0` default) or lies outside `[0, 1]`; for every
strength inside `[0, 1]` neither configuration error is raised. -/
theorem spuco_train_strength_validation (classes : List (List ℕ)) (strength : ℚ)
    (rawLabels : List ℕ) (bern : ℕ → List Bool) (shuf : ℕ → List ℕ)
    (hv : validate_classes classes = true) :
    (load_data classes strength true rawLabels bern shuf =
        Except.error LoadError.strengthNotSet ∨
      load_data classes strength true rawLabels bern shuf =
        Except.error LoadError.strengthOutOfRange) ↔
      (strength < 0 ∨ 1 < strength) := by
  constructor
  · intro h
    by_contra hc
    push_neg at hc
    obtain ⟨h0, h1⟩ := hc
    have heq : load_data classes strength true rawLabels bern shuf =
        (apply_groups (train_vals_for classes.length bern shuf)
          (buildPartition (keptLabels classes rawLabels))
          (List.replicate (keptLabels classes rawLabels).length (-1))).map
          (fun s => (keptLabels classes rawLabels, s)) := by
      rw [load_data, if_pos hv, if_pos rfl, if_neg (not_lt.mpr h0),
        if_neg (not_lt.mpr h1)]
    rw [heq] at h
    cases happ : apply_groups (train_vals_for classes.length bern shuf)
        (buildPartition (keptLabels classes rawLabels))
        (List.replicate (keptLabels classes rawLabels).length (-1)) with
    | ok r =>
      rw [happ] at h
      rcases h with h | h <;> exact absurd h (by simp [Except.map])
    | error err =>
      obtain ⟨g, m, hgm⟩ := apply_groups_error happ
      have herr := train_vals_for_error hgm
      subst herr
      rw [happ] at h
      rcases h with h | h <;> simpa [Except.map] using h
  · intro h
    rcases h with h | h
    · left
      rw [load_data, if_pos hv, if_pos rfl, if_pos h]
    · right
      have h0 : ¬strength < 0 := by
        intro h0
        exact absurd (h.trans h0) (by norm_num)
      rw [load_data, if_pos hv, if_pos rfl, if_neg h0, if_pos h]

/-- Witness for C2 at the unset default strength `-1.0`. -/
theorem spuco_train_strength_validation_witness :
    load_data [[0], [1]] (-1) true [] (fun _ => []) (fun _ => []) =
        Except.error LoadError.strengthNotSet ∨
      load_data [[0], [1]] (-1) true [] (fun _ => []) (fun _ => []) =
        Except.error LoadError.strengthOutOfRange :=
  (spuco_train_strength_validation [[0], [1]] (-1) [] (fun _ => []) (fun _ => [])
    (by rfl)).mpr (Or.inl (by norm_num))

/-! ### C10 — one latent class with strength below 1: `ZeroDivisionError` -/

/-- C10: in training mode with exactly one latent class and a (well-formed)
correlation strength below 1, construction is not total: whenever some
Bernoulli draw is 0, the non-aligned branch evaluates
`other_labels[i % len(other_labels)]` with `other_labels == []`
(`ZeroDivisionError`), so `load_data` fails instead of returning a dataset. -/
theorem spuco_single_class_zero_division (classes : List (List ℕ)) (strength : ℚ)
    (rawLabels : List ℕ) (bern : ℕ → List Bool) (shuf : ℕ → List ℕ)
    (hv : validate_classes classes = true) (hk : classes.length = 1)
    (h0 : 0 ≤ strength) (h1 : strength < 1)
    (hdraw : ∃ i < (keptLabels classes rawLabels).length,
      (bern 0).getD i false = false) :
    load_data classes strength true rawLabels bern shuf =
      Except.error LoadError.zeroDivision := by
  set labels := keptLabels classes rawLabels with hlabels
  have hN : 0 < labels.length := by
    obtain ⟨i, hi, -⟩ := hdraw
    omega
  have hall0 : ∀ g ∈ labels, g = 0 := by
    intro g hg
    have := keptLabels_lt (hlabels ▸ hg)
    omega
  have hpart : buildPartition labels = [(0, List.range labels.length)] :=
    buildPartition_single hall0 hN
  have hvals : train_vals_for classes.length bern shuf 0
      (List.range labels.length).length = Except.error LoadError.zeroDivision := by
    rw [train_vals_for]
    have hnone : train_bg_labels classes.length 0 (bern 0)
        (List.range labels.length).length = none := by
      apply train_bg_labels_none
      · rw [hk]; rfl
      · simpa using hdraw
    rw [hnone]
  rw [load_data, if_pos hv, if_pos rfl, if_neg (not_lt.mpr h0),
    if_neg (not_lt.mpr (le_of_lt h1)), ← hlabels, hpart, apply_groups, hvals]
  rfl

/-- Witness for C10: one class `[[3]]`, strength `0`, a single kept sample
whose Bernoulli draw is 0. -/
theorem spuco_single_class_zero_division_witness :
    load_data [[3]] 0 true [3] (fun _ => [false]) (fun _ => [0]) =
      Except.error LoadError.zeroDivision :=
  spuco_single_class_zero_division [[3]] 0 [3] (fun _ => [false]) (fun _ => [0])
    (by rfl) (by rfl) (by norm_num) (by norm_num) (by decide)

/-! ### C1 — both group partitions are exact partitions of `{0..N-1}` -/

/-- C1: the true-label partition built by `load_data` over its kept samples
(lines 100-105) and the group partition returned by `infer_groups`
(lines 56-62) are exact partitions of their index sets: every index appears
in exactly one group's list, with no omissions and no duplicates. -/
theorem spuco_partitions_exact (classes : List (List ℕ)) (rawLabels : List ℕ)
    (envPos : List Bool) (labels : List ℤ) :
    isExactPartition (buildPartition (keptLabels classes rawLabels))
      (keptLabels classes rawLabels).length ∧
    isExactPartition (eiil_group_partition envPos labels)
      (eiil_group_labels envPos labels).length :=
  ⟨fun i => partitionCount_buildPartition _ i,
   fun i => partitionCount_buildPartition _ i⟩

/-! ### Inversion of a successful `load_data` run -/

theorem load_data_ok_elim {classes : List (List ℕ)} {strength : ℚ} {train : Bool}
    {rawLabels : List ℕ} {bern : ℕ → List Bool} {shuf : ℕ → List ℕ}
    {labels : List ℕ} {spur : List ℤ}
    (hok : load_data classes strength train rawLabels bern shuf =
      Except.ok (labels, spur)) :
    validate_classes classes = true ∧ labels = keptLabels classes rawLabels ∧
    apply_groups
      (if train then train_vals_for classes.length bern shuf
       else test_vals_for classes.length shuf)
      (buildPartition (keptLabels classes rawLabels))
      (List.replicate (keptLabels classes rawLabels).length (-1)) =
      Except.ok spur := by
  by_cases hv : validate_classes classes = true
  case neg =>
    rw [load_data, if_neg (by simpa using hv)] at hok
    exact absurd hok (by simp)
  case pos =>
    cases train with
    | true =>
      rw [load_data, if_pos hv, if_pos rfl] at hok
      by_cases h0 : strength < 0
      · rw [if_pos h0] at hok; exact absurd hok (by simp)
      · rw [if_neg h0] at hok
        by_cases h1 : 1 < strength
        · rw [if_pos h1] at hok; exact absurd hok (by simp)
        · rw [if_neg h1] at hok
          cases happ : apply_groups (train_vals_for classes.length bern shuf)
              (buildPartition (keptLabels classes rawLabels))
              (List.replicate (keptLabels classes rawLabels).length (-1)) with
          | error err =>
            rw [happ] at hok
            exact absurd hok (by simp [Except.map])
          | ok r =>
            rw [happ] at hok
            simp only [Except.map, Except.ok.injEq, Prod.mk.injEq] at hok
            exact ⟨hv, hok.1.symm, by rw [if_pos rfl, happ, hok.2]⟩
    | false =>
      rw [load_data, if_pos hv, if_neg (by simp)] at hok
      cases happ : apply_groups (test_vals_for classes.length shuf)
          (buildPartition (keptLabels classes rawLabels))
          (List.replicate (keptLabels classes rawLabels).length (-1)) with
      | error err =>
        rw [happ] at hok
        exact absurd hok (by simp [Except.map])
      | ok r =>
        rw [happ] at hok
        simp only [Except.map, Except.ok.injEq, Prod.mk.injEq] at hok
        exact ⟨hv, hok.1.symm, by rw [if_neg (by simp), happ, hok.2]⟩

/-! ### Per-mode value-list specifications -/

theorem test_bg_labels_range {k m : ℕ} (hk : 0 < k) :
    ∀ v ∈ test_bg_labels k m, 0 ≤ v ∧ v < (k : ℤ) := by
  intro v hv
  obtain ⟨i, -, hi⟩ := List.mem_map.mp hv
  subst hi
  constructor
  · positivity
  · exact_mod_cast Nat.mod_lt i hk

theorem test_bg_labels_getD {k m j : ℕ} (hj : j < m) :
    (test_bg_labels k m).getD j 0 = ((j % k : ℕ) : ℤ) := by
  rw [test_bg_labels, List.getD_eq_getElem _ _ (by simpa using hj)]
  simp

theorem train_vals_for_ok_spec {k g m : ℕ} {bern : ℕ → List Bool}
    {shuf : ℕ → List ℕ} {vals : List ℤ}
    (hσ : (shuf g).Perm (List.range m)) (hg : g < k)
    (h : train_vals_for k bern shuf g m = Except.ok vals) :
    vals.length = m ∧ ∀ v ∈ vals, 0 ≤ v ∧ v < (k : ℤ) := by
  rw [train_vals_for] at h
  cases hbg : train_bg_labels k g (bern g) m with
  | none => rw [hbg] at h; exact absurd h (by simp)
  | some vals0 =>
    rw [hbg] at h
    injection h with h
    subst h
    refine ⟨by rw [permute_length, hσ.length_eq, List.length_range], ?_⟩
    intro v hv
    rcases permute_mem hv with hv | hv
    · exact train_bg_labels_range hg hbg v hv
    · subst hv
      have hk0 : 0 < k := by omega
      exact ⟨le_refl 0, by exact_mod_cast hk0⟩

theorem test_vals_for_ok_spec {k g m : ℕ} {shuf : ℕ → List ℕ} {vals : List ℤ}
    (hσ : (shuf g).Perm (List.range m)) (hg : g < k)
    (h : test_vals_for k shuf g m = Except.ok vals) :
    vals.length = m ∧ ∀ v ∈ vals, 0 ≤ v ∧ v < (k : ℤ) := by
  rw [test_vals_for] at h
  injection h with h
  subst h
  refine ⟨by rw [permute_length, hσ.length_eq, List.length_range], ?_⟩
  intro v hv
  rcases permute_mem hv with hv | hv
  · exact test_bg_labels_range (by omega) v hv
  · subst hv
    have hk0 : 0 < k := by omega
    exact ⟨le_refl 0, by exact_mod_cast hk0⟩

/-! ### C9 — spurious classes always land in `[0, k-1]` -/

/-- C9: after a successful dataset construction in either mode, every kept
sample's spurious-class value lies in `[0, k-1]` (`k` latent classes): the
reserved last palette entry (black, index `k`, appended by `init_colors` at
lines 151-152) is never assigned, and no entry of the spurious vector remains
at its initial `-1` placeholder (line 108). -/
theorem spuco_spurious_in_range (classes : List (List ℕ)) (strength : ℚ)
    (train : Bool) (rawLabels : List ℕ) (bern : ℕ → List Bool)
    (shuf : ℕ → List ℕ) (labels : List ℕ) (spur : List ℤ)
    (hshuf : ∀ e ∈ buildPartition (keptLabels classes rawLabels),
      (shuf e.1).Perm (List.range e.2.length))
    (hok : load_data classes strength train rawLabels bern shuf =
      Except.ok (labels, spur)) :
    spur.length = labels.length ∧
    ∀ i < spur.length, 0 ≤ spur.getD i (-1) ∧
      spur.getD i (-1) < (classes.length : ℤ) := by
  obtain ⟨hv, hlab, happ⟩ := load_data_ok_elim hok
  subst hlab
  set kept := keptLabels classes rawLabels with hkept
  set part := buildPartition kept with hpart
  have hvalspec : ∀ e ∈ part, ∀ vals,
      (if train then train_vals_for classes.length bern shuf
       else test_vals_for classes.length shuf) e.1 e.2.length =
        Except.ok vals →
      vals.length = e.2.length ∧
        ∀ v ∈ vals, 0 ≤ v ∧ v < (classes.length : ℤ) := by
    intro e he vals hval
    have hg : e.1 < classes.length := by
      obtain ⟨g, l⟩ := e
      exact buildPartition_key_lt (hpart ▸ he)
    cases train with
    | true =>
      rw [if_pos rfl] at hval
      exact train_vals_for_ok_spec (hshuf e he) hg hval
    | false =>
      rw [if_neg (by simp)] at hval
      exact test_vals_for_ok_spec (hshuf e he) hg hval
  obtain ⟨hrlen, -, hspec⟩ := apply_groups_ok_spec
    (buildPartition_disjoint kept)
    (fun e he => buildPartition_members_nodup he)
    (fun e he x hx => by
      rw [List.length_replicate]
      exact ((buildPartition_mem_members he x).mp hx).1)
    (fun e he vals hval => (hvalspec e he vals hval).1)
    happ
  rw [List.length_replicate] at hrlen
  refine ⟨hrlen, ?_⟩
  intro i hi
  have hiN : i < kept.length := by omega
  obtain ⟨g, l, hgl, hil⟩ := buildPartition_covers hiN
  obtain ⟨vals, hvals, hmap⟩ := hspec (g, l) hgl
  have hv2 : spur.getD i (-1) ∈ vals := by
    rw [← hmap]
    exact List.mem_map.mpr ⟨i, hil, rfl⟩
  exact (hvalspec (g, l) hgl vals hvals).2 _ hv2

/-- Witness for C9: two classes, training mode with full correlation. -/
theorem spuco_spurious_in_range_witness :
    ([0, 1] : List ℤ).length = ([0, 1] : List ℕ).length ∧
    ∀ i < ([0, 1] : List ℤ).length, 0 ≤ ([0, 1] : List ℤ).getD i (-1) ∧
      ([0, 1] : List ℤ).getD i (-1) < (([[0], [1]] : List (List ℕ)).length : ℤ) :=
  spuco_spurious_in_range [[0], [1]] 1 true [0, 1] (fun _ => [true, true])
    (fun _ => [0]) [0, 1] [0, 1] (by decide) (by rfl)

/-! ### C5 — full correlation: spurious class equals the true class -/

/-- C5: in training mode with `spurious_correlation_strength = 1.0` — under
which every Bernoulli draw is 1, since a 0 draw has support only for
strength < 1 — construction succeeds and every kept sample's assigned
spurious class equals its true latent class; consequently a sample of latent
class 0 never receives the background-colour index of latent class 1. -/
theorem spuco_full_correlation (classes : List (List ℕ)) (rawLabels : List ℕ)
    (bern : ℕ → List Bool) (shuf : ℕ → List ℕ)
    (hv : validate_classes classes = true)
    (hbern : ∀ e ∈ buildPartition (keptLabels classes rawLabels),
      ∀ i < e.2.length, bernoulli_support 1 ((bern e.1).getD i false) = true)
    (hshuf : ∀ e ∈ buildPartition (keptLabels classes rawLabels),
      (shuf e.1).Perm (List.range e.2.length)) :
    ∃ spur, load_data classes 1 true rawLabels bern shuf =
        Except.ok (keptLabels classes rawLabels, spur) ∧
      ∀ i < (keptLabels classes rawLabels).length,
        spur.getD i (-1) = ((keptLabels classes rawLabels).getD i 0 : ℤ) ∧
        ((keptLabels classes rawLabels).getD i 0 = 0 →
          spur.getD i (-1) ≠ 1) := by
  set kept := keptLabels classes rawLabels with hkept
  set part := buildPartition kept with hpart
  have hvalsok : ∀ e ∈ part, train_vals_for classes.length bern shuf e.1
      e.2.length = Except.ok (List.replicate e.2.length ((e.1 : ℕ) : ℤ)) := by
    intro e he
    have halltrue : ∀ i < e.2.length, (bern e.1).getD i false = true :=
      fun i hi => bernoulli_support_one (hbern e he i hi)
    rw [train_vals_for, train_bg_labels_all_true halltrue]
    have hσmem : ∀ j ∈ shuf e.1, j < e.2.length := by
      intro j hj
      have hj2 := (hshuf e he).mem_iff.mp hj
      simpa using hj2
    show Except.ok
        (permute (shuf e.1) (List.replicate e.2.length ((e.1 : ℕ) : ℤ)) 0) = _
    rw [permute_replicate hσmem, (hshuf e he).length_eq, List.length_range]
  obtain ⟨r, hr⟩ := apply_groups_ok_of_all
    (List.replicate kept.length (-1))
    (fun e he => ⟨_, hvalsok e he⟩)
  have hload : load_data classes 1 true rawLabels bern shuf =
      Except.ok (kept, r) := by
    rw [load_data, if_pos hv, if_pos rfl, if_neg (by norm_num),
      if_neg (by norm_num), ← hkept, ← hpart, hr]
    rfl
  obtain ⟨hrlen, -, hspec⟩ := apply_groups_ok_spec
    (buildPartition_disjoint kept)
    (fun e he => buildPartition_members_nodup he)
    (fun e he x hx => by
      rw [List.length_replicate]
      exact ((buildPartition_mem_members he x).mp hx).1)
    (fun e he vals hval => by
      rw [hvalsok e he] at hval
      injection hval with hval
      rw [← hval, List.length_replicate])
    hr
  refine ⟨r, hload, ?_⟩
  intro i hi
  obtain ⟨g, l, hgl, hil⟩ := buildPartition_covers hi
  obtain ⟨vals, hvals, hmap⟩ := hspec (g, l) hgl
  rw [hvalsok (g, l) hgl] at hvals
  injection hvals with hvals
  have hvi : r.getD i (-1) ∈ vals := by
    rw [← hmap]
    exact List.mem_map.mpr ⟨i, hil, rfl⟩
  rw [← hvals] at hvi
  have hval_g : r.getD i (-1) = ((g : ℕ) : ℤ) := List.eq_of_mem_replicate hvi
  have hlabel : kept.getD i 0 = g :=
    ((buildPartition_mem_members hgl i).mp hil).2
  constructor
  · rw [hval_g, hlabel]
  · intro h0
    have hg0 : g = 0 := by rw [← hlabel, h0]
    rw [hval_g, hg0]
    norm_num

/-- Witness for C5 at `classes = [[0,1],[2,3]]`. -/
theorem spuco_full_correlation_witness :
    ∃ spur, load_data [[0, 1], [2, 3]] 1 true [0, 2, 1] (fun _ => [true, true])
        (fun g => if g = 0 then [1, 0] else [0]) =
        Except.ok (keptLabels [[0, 1], [2, 3]] [0, 2, 1], spur) ∧
      ∀ i < (keptLabels [[0, 1], [2, 3]] [0, 2, 1]).length,
        spur.getD i (-1) =
          ((keptLabels [[0, 1], [2, 3]] [0, 2, 1]).getD i 0 : ℤ) ∧
        ((keptLabels [[0, 1], [2, 3]] [0, 2, 1]).getD i 0 = 0 →
          spur.getD i (-1) ≠ 1) :=
  spuco_full_correlation [[0, 1], [2, 3]] [0, 2, 1] (fun _ => [true, true])
    (fun g => if g = 0 then [1, 0] else [0]) (by rfl) (by decide) (by decide)

/-! ### C6 — evaluation mode is balanced within every true-label group -/

theorem countP_mod_eq (k c : ℕ) (hk : 0 < k) (hc : c < k) (m : ℕ) :
    (List.range m).countP (fun j => j % k = c) =
      m / k + if c < m % k then 1 else 0 := by
  induction m with
  | zero => simp
  | succ m ih =>
    have hsing : List.countP (fun j => decide (j % k = c)) [m] =
        if m % k = c then 1 else 0 := by
      by_cases h : m % k = c <;> simp [h]
    rw [List.range_succ, List.countP_append, ih, hsing]
    have hdm := Nat.div_add_mod m k
    have hrlt : m % k < k := Nat.mod_lt m hk
    by_cases hrk : m % k + 1 = k
    · have hm1 : m + 1 = k * (m / k + 1) := by
        rw [Nat.mul_add, Nat.mul_one]
        omega
      have hdiv : (m + 1) / k = m / k + 1 := by
        rw [hm1, Nat.mul_div_cancel_left _ hk]
      have hmod : (m + 1) % k = 0 := by
        rw [hm1, Nat.mul_mod_right]
      rw [hdiv, hmod]
      split_ifs <;> omega
    · have hlt2 : m % k + 1 < k := by omega
      have hm1 : m + 1 = (m % k + 1) + k * (m / k) := by omega
      have hdiv : (m + 1) / k = m / k := by
        rw [hm1, Nat.add_mul_div_left _ _ hk, Nat.div_eq_of_lt hlt2,
          Nat.zero_add]
      have hmod : (m + 1) % k = m % k + 1 := by
        rw [hm1, Nat.add_mul_mod_self_left, Nat.mod_eq_of_lt hlt2]
      rw [hdiv, hmod]
      split_ifs <;> omega

/-- C6: in evaluation mode (`train = false`), construction succeeds and, for
every true-label group, the numbers of its samples assigned to any two
spurious classes differ by at most one — as equal as integer division of the
group size by `k` allows — regardless of the random shuffle. -/
theorem spuco_test_balance (classes : List (List ℕ)) (strength : ℚ)
    (rawLabels : List ℕ) (bern : ℕ → List Bool) (shuf : ℕ → List ℕ)
    (hv : validate_classes classes = true)
    (hshuf : ∀ e ∈ buildPartition (keptLabels classes rawLabels),
      (shuf e.1).Perm (List.range e.2.length)) :
    ∃ spur, load_data classes strength false rawLabels bern shuf =
        Except.ok (keptLabels classes rawLabels, spur) ∧
      ∀ e ∈ buildPartition (keptLabels classes rawLabels),
        ∀ c1 c2 : ℕ, c1 < classes.length → c2 < classes.length →
          (e.2.map (fun idx => spur.getD idx (-1))).count ((c1 : ℕ) : ℤ) ≤
            (e.2.map (fun idx => spur.getD idx (-1))).count ((c2 : ℕ) : ℤ) +
              1 := by
  set kept := keptLabels classes rawLabels with hkept
  set part := buildPartition kept with hpart
  obtain ⟨r, hr⟩ := @apply_groups_ok_of_all
    (test_vals_for classes.length shuf) part
    (List.replicate kept.length (-1))
    (fun e he => ⟨_, rfl⟩)
  have hload : load_data classes strength false rawLabels bern shuf =
      Except.ok (kept, r) := by
    rw [load_data, if_pos hv, if_neg (by simp), ← hkept, ← hpart, hr]
    rfl
  obtain ⟨-, -, hspec⟩ := apply_groups_ok_spec
    (buildPartition_disjoint kept)
    (fun e he => buildPartition_members_nodup he)
    (fun e he x hx => by
      rw [List.length_replicate]
      exact ((buildPartition_mem_members he x).mp hx).1)
    (fun e he vals hval => by
      rw [test_vals_for] at hval
      injection hval with hval
      rw [← hval, permute_length, (hshuf e he).length_eq, List.length_range])
    hr
  refine ⟨r, hload, ?_⟩
  intro e he c1 c2 hc1 hc2
  obtain ⟨vals, hvals, hmap⟩ := hspec e he
  rw [test_vals_for] at hvals
  injection hvals with hvals
  rw [hmap, ← hvals]
  have hcount : ∀ c : ℕ, c < classes.length →
      (permute (shuf e.1) (test_bg_labels classes.length e.2.length) 0).count
          ((c : ℕ) : ℤ) =
        e.2.length / classes.length +
          if c < e.2.length % classes.length then 1 else 0 := by
    intro c hc
    rw [permute_count (hshuf e he)]
    have hcongr : ∀ j ∈ List.range e.2.length,
        decide ((test_bg_labels classes.length e.2.length).getD j 0 =
          ((c : ℕ) : ℤ)) = true ↔
          decide (j % classes.length = c) = true := by
      intro j hj
      rw [test_bg_labels_getD (List.mem_range.mp hj)]
      simp only [decide_eq_true_eq]
      norm_cast
    rw [List.countP_congr hcongr]
    exact countP_mod_eq classes.length c (by omega) hc e.2.length
  rw [hcount c1 hc1, hcount c2 hc2]
  split_ifs <;> omega

/-- Witness for C6 with two classes and a group of odd size. -/
theorem spuco_test_balance_witness :
    ∃ spur, load_data [[0], [1]] 0 false [0, 1, 0] (fun _ => [])
        (fun g => if g = 0 then [1, 0] else [0]) =
        Except.ok (keptLabels [[0], [1]] [0, 1, 0], spur) ∧
      ∀ e ∈ buildPartition (keptLabels [[0], [1]] [0, 1, 0]),
        ∀ c1 c2 : ℕ, c1 < ([[0], [1]] : List (List ℕ)).length →
          c2 < ([[0], [1]] : List (List ℕ)).length →
          (e.2.map (fun idx => spur.getD idx (-1))).count ((c1 : ℕ) : ℤ) ≤
            (e.2.map (fun idx => spur.getD idx (-1))).count ((c2 : ℕ) : ℤ) +
              1 :=
  spuco_test_balance [[0], [1]] 0 [0, 1, 0] (fun _ => [])
    (fun g => if g = 0 then [1, 0] else [0]) (by rfl) (by decide)

/-! ### C3 — compositing replaces exactly the zero-valued pixels -/

/-- C3: one compositing step `background * (X == 0) + X` (line 120 / 129)
replaces a pixel by the background value exactly when the original pixel is 0
and leaves every nonzero pixel unchanged; hence an image with no zero-valued
pixels is returned unchanged. -/
theorem spuco_composite_spec :
    (∀ b x : ℚ, (x = 0 → composite_pixel b x = b) ∧
      (x ≠ 0 → composite_pixel b x = x)) ∧
    ∀ bg img : List ℚ, bg.length = img.length →
      (∀ x ∈ img, x ≠ 0) → composite_image bg img = img := by
  constructor
  · intro b x
    constructor
    · intro h
      rw [composite_pixel, if_pos h, h]
      ring
    · intro h
      rw [composite_pixel, if_neg h]
      ring
  · intro bg img
    induction img generalizing bg with
    | nil =>
      intro _ _
      rw [composite_image, List.zipWith_nil_right]
    | cons x xs ih =>
      intro hlen hnz
      cases bg with
      | nil => simp at hlen
      | cons b bs =>
        rw [composite_image, List.zipWith_cons_cons]
        have hx : composite_pixel b x = x := by
          rw [composite_pixel, if_neg (hnz x (List.mem_cons_self _ _))]
          ring
        rw [hx]
        congr 1
        exact ih bs (by simpa using hlen)
          (fun y hy => hnz y (List.mem_cons_of_mem _ hy))

/-- Witness for C3: a zero pixel takes the background value, a nonzero pixel
and a zero-free image are unchanged. -/
theorem spuco_composite_spec_witness :
    composite_pixel 5 0 = 5 ∧ composite_pixel 5 7 = 7 ∧
    composite_image [1, 2] [3, 4] = [3, 4] :=
  ⟨(spuco_composite_spec.1 5 0).1 rfl,
   (spuco_composite_spec.1 5 7).2 (by norm_num),
   spuco_composite_spec.2 [1, 2] [3, 4] rfl (by decide)⟩

/-! ### C4 — mask geometry (`create_background` / `compute_mask`) -/

/-- The six difficulty levels (`SpuriousFeatureDifficulty`, imported by
`spuco_mnist.py`). -/
inductive SpuriousFeatureDifficulty where
  | magnitude_easy
  | magnitude_medium
  | magnitude_hard
  | variance_easy
  | variance_medium
  | variance_hard
deriving DecidableEq

/-- `itertools.product(range(a), range(b))` as a point list. -/
def gridPoints (a b : ℕ) : List (ℕ × ℕ) :=
  (List.range a).flatMap (fun r => (List.range b).map (fun c => (r, c)))

/-- `SpuCoMNIST.rgb_to_mnist_background` (lines 222-224): the colour triple
broadcast over the 28×28 canvas, as a function of (channel, row, column). -/
def rgb_to_mnist_background (rgb : List ℚ) : ℕ → ℕ → ℕ → ℚ :=
  fun ch _ _ => rgb.getD ch 0

/-- `SpuCoMNIST.compute_mask` (lines 214-220): zeros, then
`mask[:, rows, cols] = 1` for the paired coordinates of `unmask_points`; all
three channels are identical. -/
def compute_mask (points : List (ℕ × ℕ)) : ℕ → ℕ → ℕ → ℚ :=
  fun _ r c => if (r, c) ∈ points then 1 else 0

/-- The unmask-point list chosen by `create_background` (lines 193-211):
`none` for MAGNITUDE_EASY (no mask), a fixed top-left corner grid for the
other fixed levels, and the first 49 entries of a `randperm`-shuffled grid
(`all_points[torch.randperm(len(all_points))[:49]]`) for the variance levels.
`σ` is the `randperm` result. -/
def unmask_points : SpuriousFeatureDifficulty → List ℕ → Option (List (ℕ × ℕ))
  | SpuriousFeatureDifficulty.magnitude_easy, _ => none
  | SpuriousFeatureDifficulty.magnitude_medium, _ => some (gridPoints 4 4)
  | SpuriousFeatureDifficulty.magnitude_hard, _ => some (gridPoints 2 2)
  | SpuriousFeatureDifficulty.variance_easy, _ => some (gridPoints 7 7)
  | SpuriousFeatureDifficulty.variance_medium, σ =>
      some ((permute σ (gridPoints 14 14) (0, 0)).take 49)
  | SpuriousFeatureDifficulty.variance_hard, σ =>
      some ((permute σ (gridPoints 28 28) (0, 0)).take 49)

/-- The mask the background is multiplied by: all-ones when
`create_background` returns the background unmasked (MAGNITUDE_EASY). -/
def mask_of (dif : SpuriousFeatureDifficulty) (σ : List ℕ) : ℕ → ℕ → ℕ → ℚ :=
  match unmask_points dif σ with
  | none => fun _ _ _ => 1
  | some pts => compute_mask pts

/-- `SpuCoMNIST.create_background` (lines 178-212). -/
def create_background (dif : SpuriousFeatureDifficulty) (σ : List ℕ)
    (rgb : List ℚ) : ℕ → ℕ → ℕ → ℚ :=
  match unmask_points dif σ with
  | none => rgb_to_mnist_background rgb
  | some pts => fun ch r c =>
      rgb_to_mnist_background rgb ch r c * compute_mask pts ch r c

/-- Number of unmasked (value-1) positions of one channel of the 28×28
canvas. -/
def mask_ones (mask : ℕ → ℕ → ℕ → ℚ) (ch : ℕ) : ℕ :=
  (gridPoints 28 28).countP (fun p => decide (mask ch p.1 p.2 = 1))

/-- The unmasked point count the spec table assigns to each difficulty. -/
def expected_count : SpuriousFeatureDifficulty → ℕ
  | SpuriousFeatureDifficulty.magnitude_easy => 784
  | SpuriousFeatureDifficulty.magnitude_medium => 16
  | SpuriousFeatureDifficulty.magnitude_hard => 4
  | SpuriousFeatureDifficulty.variance_easy => 49
  | SpuriousFeatureDifficulty.variance_medium => 49
  | SpuriousFeatureDifficulty.variance_hard => 49

/-- What `torch.randperm` guarantees for the point selection of each
difficulty: a permutation of the 14×14 (resp. 28×28) grid indices for the
variance levels; no randomness is used otherwise. -/
def mask_rand_ok : SpuriousFeatureDifficulty → List ℕ → Prop
  | SpuriousFeatureDifficulty.variance_medium, σ => σ.Perm (List.range 196)
  | SpuriousFeatureDifficulty.variance_hard, σ => σ.Perm (List.range 784)
  | _, _ => True

theorem mem_gridPoints {a b : ℕ} {p : ℕ × ℕ} :
    p ∈ gridPoints a b ↔ p.1 < a ∧ p.2 < b := by
  obtain ⟨r0, c0⟩ := p
  simp only [gridPoints, List.mem_flatMap, List.mem_map, List.mem_range]
  constructor
  · rintro ⟨r, hr, c, hc, hEq⟩
    injection hEq with h1 h2
    exact ⟨h1 ▸ hr, h2 ▸ hc⟩
  · rintro ⟨h1, h2⟩
    exact ⟨r0, h1, c0, h2, rfl⟩

theorem gridPoints_nodup (a b : ℕ) : (gridPoints a b).Nodup := by
  rw [gridPoints, List.nodup_flatMap]
  constructor
  · intro r _
    rw [List.Nodup, List.pairwise_map]
    exact List.Pairwise.imp (fun h hEq => h (congrArg Prod.snd hEq))
      (List.nodup_range b)
  · refine List.Pairwise.imp ?_ (List.nodup_range a)
    intro r1 r2 hne x hx1 hx2
    obtain ⟨c1, -, h1⟩ := List.mem_map.mp hx1
    obtain ⟨c2, -, h2⟩ := List.mem_map.mp hx2
    exact hne (congrArg Prod.fst (h1.trans h2.symm))

theorem gridPoints_length (a b : ℕ) : (gridPoints a b).length = a * b := by
  rw [gridPoints, List.flatMap, List.length_flatten, List.map_map]
  have hconst : (List.range a).map
      (List.length ∘ fun r => (List.range b).map (fun c => (r, c))) =
      List.replicate a b := by
    rw [List.eq_replicate_iff]
    refine ⟨by simp, ?_⟩
    intro x hx
    obtain ⟨r, -, hr⟩ := List.mem_map.mp hx
    rw [← hr]
    simp
  rw [hconst, List.sum_replicate, smul_eq_mul]

theorem countP_or_disjoint {α : Type} (l : List α) (p q : α → Bool)
    (hdisj : ∀ a, ¬(p a = true ∧ q a = true)) :
    l.countP (fun a => p a || q a) = l.countP p + l.countP q := by
  induction l with
  | nil => simp
  | cons x xs ih =>
    rw [List.countP_cons, List.countP_cons, List.countP_cons, ih]
    cases hp : p x <;> cases hq : q x
    · simp
    · simp [Nat.add_assoc]
    · simp
      omega
    · exact absurd ⟨hp, hq⟩ (hdisj x)

theorem countP_eq_one_of_nodup {α : Type} [DecidableEq α] {grid : List α}
    (hgrid : grid.Nodup) {p : α} (hp : p ∈ grid) :
    grid.countP (fun q => decide (q = p)) = 1 := by
  induction grid with
  | nil => simp at hp
  | cons x xs ih =>
    simp only [List.nodup_cons] at hgrid
    by_cases hx : x = p
    · subst hx
      rw [List.countP_cons]
      have hz : xs.countP (fun q => decide (q = x)) = 0 := by
        apply List.countP_eq_zero.mpr
        intro a ha
        simp only [decide_eq_true_eq]
        intro hEq
        exact hgrid.1 (hEq ▸ ha)
      rw [hz]
      simp
    · rw [List.countP_cons]
      rcases List.mem_cons.mp hp with h | h
      · exact absurd h.symm hx
      · rw [ih hgrid.2 h]
        simp [hx]

theorem countP_mem_nodup (grid : List (ℕ × ℕ)) (hgrid : grid.Nodup) :
    ∀ pts : List (ℕ × ℕ), pts.Nodup → (∀ p ∈ pts, p ∈ grid) →
      grid.countP (fun q => decide (q ∈ pts)) = pts.length := by
  intro pts
  induction pts with
  | nil => intro _ _; simp
  | cons p rest ih =>
    intro hnd hsub
    simp only [List.nodup_cons] at hnd
    have hsplit : grid.countP (fun q => decide (q ∈ p :: rest)) =
        grid.countP (fun q => decide (q = p) || decide (q ∈ rest)) := by
      apply List.countP_congr
      intro a _
      simp [List.mem_cons]
    have hdisj : ∀ a : ℕ × ℕ,
        ¬(decide (a = p) = true ∧ decide (a ∈ rest) = true) := by
      intro a ⟨h1, h2⟩
      simp only [decide_eq_true_eq] at h1 h2
      exact hnd.1 (h1 ▸ h2)
    rw [hsplit, countP_or_disjoint grid _ _ hdisj,
      countP_eq_one_of_nodup hgrid (hsub p (List.mem_cons_self _ _)),
      ih hnd.2 (fun q hq => hsub q (List.mem_cons_of_mem _ hq))]
    simp [Nat.add_comm]

theorem permute_perm {α : Type} {σ : List ℕ} {xs : List α} (dflt : α)
    (hσ : σ.Perm (List.range xs.length)) : (permute σ xs dflt).Perm xs := by
  have hmap : (List.range xs.length).map (fun j => xs.getD j dflt) = xs := by
    apply List.ext_getElem
    · simp
    · intro i h1 h2
      simp only [List.getElem_map, List.getElem_range]
      rw [List.getD_eq_getElem _ _ h2]
  have h1 : (permute σ xs dflt).Perm
      ((List.range xs.length).map (fun j => xs.getD j dflt)) := hσ.map _
  rw [hmap] at h1
  exact h1

theorem take_permute_spec {σ : List ℕ} (xs : List (ℕ × ℕ)) (t : ℕ)
    (hσ : σ.Perm (List.range xs.length)) (hnd : xs.Nodup)
    (ht : t ≤ xs.length) :
    ((permute σ xs (0, 0)).take t).Nodup ∧
    ((permute σ xs (0, 0)).take t).length = t ∧
    ∀ p ∈ (permute σ xs (0, 0)).take t, p ∈ xs := by
  have hperm := permute_perm (0, 0) hσ
  refine ⟨?_, ?_, ?_⟩
  · exact List.Sublist.nodup (List.take_sublist _ _) (hperm.symm.nodup hnd)
  · rw [List.length_take, permute_length, hσ.length_eq, List.length_range]
    omega
  · intro p hp
    exact hperm.mem_iff.mp (List.mem_of_mem_take hp)

theorem compute_mask_eq_one {pts : List (ℕ × ℕ)} (ch r c : ℕ)
    (h : compute_mask pts ch r c = 1) : (r, c) ∈ pts := by
  by_contra hmem
  rw [compute_mask, if_neg hmem] at h
  norm_num at h

/-- C4: for every difficulty level the mask is binary-valued and selects
exactly the specified number of points per channel — 784 (full canvas), 16,
4, 49, 49 and 49 — the 49 variance points being distinct points of the 14×14
(resp. 28×28) grid drawn without replacement. -/
theorem spuco_mask_spec (dif : SpuriousFeatureDifficulty) (σ : List ℕ)
    (hσ : mask_rand_ok dif σ) (ch : ℕ) :
    (∀ r c : ℕ, mask_of dif σ ch r c = 0 ∨ mask_of dif σ ch r c = 1) ∧
    mask_ones (mask_of dif σ) ch = expected_count dif ∧
    (dif = SpuriousFeatureDifficulty.variance_medium →
      ∀ r c : ℕ, mask_of dif σ ch r c = 1 → r < 14 ∧ c < 14) ∧
    (dif = SpuriousFeatureDifficulty.variance_hard →
      ∀ r c : ℕ, mask_of dif σ ch r c = 1 → r < 28 ∧ c < 28) := by
  have hbinary : ∀ pts : List (ℕ × ℕ), ∀ r c : ℕ,
      compute_mask pts ch r c = 0 ∨ compute_mask pts ch r c = 1 := by
    intro pts r c
    rw [compute_mask]
    by_cases h : (r, c) ∈ pts
    · right; rw [if_pos h]
    · left; rw [if_neg h]
  have hcount : ∀ pts : List (ℕ × ℕ), pts.Nodup →
      (∀ p ∈ pts, p ∈ gridPoints 28 28) →
      mask_ones (compute_mask pts) ch = pts.length := by
    intro pts hnd hsub
    rw [mask_ones]
    have hcongr : ∀ p ∈ gridPoints 28 28,
        decide (compute_mask pts ch p.1 p.2 = 1) = true ↔
          decide (p ∈ pts) = true := by
      intro p _
      simp only [decide_eq_true_eq, compute_mask]
      by_cases h : (p.1, p.2) ∈ pts
      · simp [h]
      · simp [h]
    rw [List.countP_congr hcongr]
    exact countP_mem_nodup (gridPoints 28 28) (gridPoints_nodup 28 28)
      pts hnd hsub
  cases dif with
  | magnitude_easy =>
    refine ⟨fun r c => Or.inr rfl, ?_, ?_, ?_⟩
    · have h1 : mask_ones
          (mask_of SpuriousFeatureDifficulty.magnitude_easy σ) ch =
          (gridPoints 28 28).length := by
        rw [mask_ones]
        apply List.countP_eq_length.mpr
        intro p _
        simp [mask_of, unmask_points]
      rw [h1, gridPoints_length]
      norm_num [expected_count]
    · intro h; exact absurd h (by decide)
    · intro h; exact absurd h (by decide)
  | magnitude_medium =>
    refine ⟨fun r c => hbinary (gridPoints 4 4) r c, ?_, ?_, ?_⟩
    · show mask_ones (compute_mask (gridPoints 4 4)) ch = 16
      rw [hcount (gridPoints 4 4) (gridPoints_nodup 4 4)
        (fun p hp => mem_gridPoints.mpr
          (by have h2 := mem_gridPoints.mp hp; omega)), gridPoints_length]
    · intro h; exact absurd h (by decide)
    · intro h; exact absurd h (by decide)
  | magnitude_hard =>
    refine ⟨fun r c => hbinary (gridPoints 2 2) r c, ?_, ?_, ?_⟩
    · show mask_ones (compute_mask (gridPoints 2 2)) ch = 4
      rw [hcount (gridPoints 2 2) (gridPoints_nodup 2 2)
        (fun p hp => mem_gridPoints.mpr
          (by have h2 := mem_gridPoints.mp hp; omega)), gridPoints_length]
    · intro h; exact absurd h (by decide)
    · intro h; exact absurd h (by decide)
  | variance_easy =>
    refine ⟨fun r c => hbinary (gridPoints 7 7) r c, ?_, ?_, ?_⟩
    · show mask_ones (compute_mask (gridPoints 7 7)) ch = 49
      rw [hcount (gridPoints 7 7) (gridPoints_nodup 7 7)
        (fun p hp => mem_gridPoints.mpr
          (by have h2 := mem_gridPoints.mp hp; omega)), gridPoints_length]
    · intro h; exact absurd h (by decide)
    · intro h; exact absurd h (by decide)
  | variance_medium =>
    have h196 : (gridPoints 14 14).length = 196 := by
      rw [gridPoints_length]
    have hσ2 : σ.Perm (List.range (gridPoints 14 14).length) := by
      rw [h196]; exact hσ
    obtain ⟨hnd, hlen, hsub⟩ := take_permute_spec (gridPoints 14 14) 49 hσ2
      (gridPoints_nodup 14 14) (by rw [h196]; norm_num)
    refine ⟨fun r c => hbinary _ r c, ?_, ?_, ?_⟩
    · show mask_ones
        (compute_mask ((permute σ (gridPoints 14 14) (0, 0)).take 49)) ch = 49
      rw [hcount _ hnd (fun p hp => mem_gridPoints.mpr
        (by have h2 := mem_gridPoints.mp (hsub p hp); omega)), hlen]
    · intro _ r c hm
      have hmem := compute_mask_eq_one ch r c hm
      have h2 := mem_gridPoints.mp (hsub _ hmem)
      exact ⟨h2.1, h2.2⟩
    · intro h; exact absurd h (by decide)
  | variance_hard =>
    have h784 : (gridPoints 28 28).length = 784 := by
      rw [gridPoints_length]
    have hσ2 : σ.Perm (List.range (gridPoints 28 28).length) := by
      rw [h784]; exact hσ
    obtain ⟨hnd, hlen, hsub⟩ := take_permute_spec (gridPoints 28 28) 49 hσ2
      (gridPoints_nodup 28 28) (by rw [h784]; norm_num)
    refine ⟨fun r c => hbinary _ r c, ?_, ?_, ?_⟩
    · show mask_ones
        (compute_mask ((permute σ (gridPoints 28 28) (0, 0)).take 49)) ch = 49
      rw [hcount _ hnd (fun p hp => mem_gridPoints.mpr
        (by have h2 := mem_gridPoints.mp (hsub p hp); omega)), hlen]
    · intro h; exact absurd h (by decide)
    · intro _ r c hm
      have hmem := compute_mask_eq_one ch r c hm
      have h2 := mem_gridPoints.mp (hsub _ hmem)
      exact ⟨h2.1, h2.2⟩

/-- Witness for C4 at VARIANCE_MEDIUM with the identity permutation. -/
theorem spuco_mask_spec_witness :
    (∀ r c : ℕ,
      mask_of SpuriousFeatureDifficulty.variance_medium (List.range 196) 0 r c =
          0 ∨
        mask_of SpuriousFeatureDifficulty.variance_medium (List.range 196) 0 r c =
          1) ∧
    mask_ones (mask_of SpuriousFeatureDifficulty.variance_medium
        (List.range 196)) 0 =
      expected_count SpuriousFeatureDifficulty.variance_medium ∧
    (SpuriousFeatureDifficulty.variance_medium =
        SpuriousFeatureDifficulty.variance_medium →
      ∀ r c : ℕ,
        mask_of SpuriousFeatureDifficulty.variance_medium (List.range 196) 0 r c =
            1 →
          r < 14 ∧ c < 14) ∧
    (SpuriousFeatureDifficulty.variance_medium =
        SpuriousFeatureDifficulty.variance_hard →
      ∀ r c : ℕ,
        mask_of SpuriousFeatureDifficulty.variance_medium (List.range 196) 0 r c =
            1 →
          r < 28 ∧ c < 28) :=
  spuco_mask_spec SpuriousFeatureDifficulty.variance_medium (List.range 196)
    (List.Perm.refl _) 0

/-! ### C7 — EIIL group-label refinement -/

theorem getD_map_of_lt {α β : Type} (f : α → β) {l : List α} {i : ℕ}
    (d1 : α) (d2 : β) (h : i < l.length) :
    (l.map f).getD i d2 = f (l.getD i d1) := by
  rw [List.getD_eq_getElem _ _ (by simpa using h), List.getElem_map,
    List.getD_eq_getElem _ _ h]

theorem getD_zipWith_of_lt {α β γ : Type} (f : α → β → γ) {as : List α}
    {bs : List β} {i : ℕ} (d1 : α) (d2 : β) (d3 : γ)
    (h1 : i < as.length) (h2 : i < bs.length) :
    (List.zipWith f as bs).getD i d3 = f (as.getD i d1) (bs.getD i d2) := by
  rw [List.getD_eq_getD_get?, List.get?_eq_getElem?, List.getElem?_zipWith,
    List.getElem?_eq_getElem h1, List.getElem?_eq_getElem h2,
    List.getD_eq_getElem _ _ h1, List.getD_eq_getElem _ _ h2]
  rfl

/-- C7: after hardening (`env_w.sigmoid() > .5`, lines 51-52, `envPos` being
the per-sample comparison result), every sample whose true label equals 1 has
its raw group index incremented by exactly 2 (line 53), labels other than 1
leave it unchanged, and every final group id lies in `{0, 1, 2, 3}` =
{env0∧label≠1, env1∧label≠1, env0∧label=1, env1∧label=1}. -/
theorem eiil_group_label_refinement (envPos : List Bool) (labels : List ℤ)
    (hlen : envPos.length = labels.length) (i : ℕ) (hi : i < labels.length) :
    (eiil_group_labels envPos labels).getD i 0 =
      (if envPos.getD i false then 1 else 0) +
        (if labels.getD i 0 = 1 then 2 else 0) ∧
    (labels.getD i 0 = 1 →
      (eiil_group_labels envPos labels).getD i 0 =
        (raw_group_labels envPos).getD i 0 + 2) ∧
    (labels.getD i 0 ≠ 1 →
      (eiil_group_labels envPos labels).getD i 0 =
        (raw_group_labels envPos).getD i 0) ∧
    (eiil_group_labels envPos labels).getD i 0 ∈ ({0, 1, 2, 3} : Set ℤ) := by
  have hi2 : i < envPos.length := by omega
  have hraw : (raw_group_labels envPos).getD i 0 =
      (if envPos.getD i false then 1 else 0) := by
    rw [raw_group_labels, getD_map_of_lt _ false _ hi2]
  have hlenraw : i < (raw_group_labels envPos).length := by
    rw [raw_group_labels, List.length_map]
    omega
  have hmain : (eiil_group_labels envPos labels).getD i 0 =
      (if labels.getD i 0 = 1 then (raw_group_labels envPos).getD i 0 + 2
       else (raw_group_labels envPos).getD i 0) := by
    rw [eiil_group_labels, getD_zipWith_of_lt _ 0 0 0 hlenraw hi]
  refine ⟨?_, ?_, ?_, ?_⟩
  · rw [hmain, hraw]
    by_cases hl : labels.getD i 0 = 1
    · rw [if_pos hl, if_pos hl]
    · rw [if_neg hl, if_neg hl]
      ring
  · intro hl
    rw [hmain, if_pos hl]
  · intro hl
    rw [hmain, if_neg hl]
  · rw [hmain, hraw]
    by_cases hl : labels.getD i 0 = 1
    · by_cases hb : envPos.getD i false = true
      · rw [if_pos hl, if_pos hb]
        simp only [Set.mem_insert_iff, Set.mem_singleton_iff]
        norm_num
      · rw [if_pos hl, if_neg hb]
        simp only [Set.mem_insert_iff, Set.mem_singleton_iff]
        norm_num
    · by_cases hb : envPos.getD i false = true
      · rw [if_neg hl, if_pos hb]
        simp only [Set.mem_insert_iff, Set.mem_singleton_iff]
        norm_num
      · rw [if_neg hl, if_neg hb]
        simp only [Set.mem_insert_iff, Set.mem_singleton_iff]
        norm_num

/-- Witness for C7 at a single sample with label 1 in environment 1. -/
theorem eiil_group_label_refinement_witness :
    (eiil_group_labels [true] [1]).getD 0 0 =
      (if ([true] : List Bool).getD 0 false then 1 else 0) +
        (if ([1] : List ℤ).getD 0 0 = 1 then 2 else 0) ∧
    (([1] : List ℤ).getD 0 0 = 1 →
      (eiil_group_labels [true] [1]).getD 0 0 =
        (raw_group_labels [true]).getD 0 0 + 2) ∧
    (([1] : List ℤ).getD 0 0 ≠ 1 →
      (eiil_group_labels [true] [1]).getD 0 0 =
        (raw_group_labels [true]).getD 0 0) ∧
    (eiil_group_labels [true] [1]).getD 0 0 ∈ ({0, 1, 2, 3} : Set ℤ) :=
  eiil_group_label_refinement [true] [1] rfl 0 (by norm_num)

/-! ### C8 — only `env_w` is optimized; `scale` stays at 1 -/

/-- The two tensors with `requires_grad` in `infer_groups`. -/
inductive EIILParam where
  | scale
  | envW
deriving DecidableEq

/-- State of the optimization loop: the scalar `scale` (line 28) and the
per-sample weight vector `env_w` (line 31). -/
structure EIILOptState where
  scale : ℚ
  envW : List ℚ

/-- `optimizer.step()` for a first-order optimizer over this state: a
parameter handed to the optimizer takes its newly computed value, a parameter
the optimizer does not track is left untouched. -/
def opt_step (tracked : List EIILParam) (cand : EIILOptState)
    (s : EIILOptState) : EIILOptState :=
  ⟨if EIILParam.scale ∈ tracked then cand.scale else s.scale,
   if EIILParam.envW ∈ tracked then cand.envW else s.envW⟩

/-- `optimizer = optim.Adam([env_w], lr=self.lr)` (line 32): the optimizer
tracks only `env_w`. -/
def eiil_tracked : List EIILParam := [EIILParam.envW]

/-- `scale = torch.tensor(1.)` (line 28) and the random `env_w`
initialisation (line 31). -/
def eiil_init (w0 : List ℚ) : EIILOptState := ⟨1, w0⟩

/-- The optimization loop (lines 35-48): each of the `num_steps` iterations
computes the negated gradient-penalty objective and the Adam update of the
tracked parameters — abstracted as the oracle `upd`, since the
sigmoid/Adam arithmetic is transcendental — then takes one optimizer step. -/
def eiil_loop (upd : ℕ → EIILOptState → EIILOptState) (numSteps : ℕ)
    (s0 : EIILOptState) : EIILOptState :=
  (List.range numSteps).foldl (fun s i => opt_step eiil_tracked (upd i s) s) s0

/-- C8: throughout the whole optimization loop, an optimizer step writes the
candidate value only into `env_w` (the only tracked parameter) and never into
`scale`; consequently, whatever updates the gradient computation produces and
however many steps are run, `scale` retains its initial value 1. -/
theorem eiil_scale_frozen (upd : ℕ → EIILOptState → EIILOptState)
    (numSteps : ℕ) (w0 : List ℚ) :
    (∀ cand s : EIILOptState,
      (opt_step eiil_tracked cand s).scale = s.scale ∧
      (opt_step eiil_tracked cand s).envW = cand.envW) ∧
    (eiil_loop upd numSteps (eiil_init w0)).scale = 1 := by
  have hstep : ∀ cand s : EIILOptState,
      (opt_step eiil_tracked cand s).scale = s.scale ∧
      (opt_step eiil_tracked cand s).envW = cand.envW := by
    intro cand s
    have hsc : EIILParam.scale ∉ eiil_tracked := by decide
    have hw : EIILParam.envW ∈ eiil_tracked := by decide
    constructor
    · rw [opt_step, if_neg hsc]
    · rw [opt_step, if_pos hw]
  refine ⟨hstep, ?_⟩
  have hgen : ∀ (l : List ℕ) (s0 : EIILOptState),
      (l.foldl (fun s i => opt_step eiil_tracked (upd i s) s) s0).scale =
        s0.scale := by
    intro l
    induction l with
    | nil => intro s0; rfl
    | cons x xs ih =>
      intro s0
      rw [List.foldl_cons, ih, (hstep _ _).1]
  exact hgen (List.range numSteps) (eiil_init w0)

end SpuCo
